import Mathlib

/-!
# Verification of `array_tools.py` (openalea.cellcomplex property_topomesh utils)

Shallow embedding of the four helper functions of
`src/openalea/cellcomplex/property_topomesh/utils/array_tools.py`:

* `array_unique` — row-wise deduplication of a 2-D array.  The source views
  each row as one opaque byte string (`array.view(np.void)`) and applies
  `np.unique(..., return_index=True)`.  We model a 2-D array of non-negative
  machine integers as a `List (List Nat)`; a row's opaque key is the
  concatenation of the little-endian 8-byte encodings of its elements
  (`np.void` keys compare by `memcmp`, i.e. lexicographically on bytes).
  `np.unique` returns the distinct keys in ascending key order together with
  the index of the first occurrence of each (the stable `mergesort` path that
  numpy uses when `return_index=True`).

* `where_list` — `nd.sum(np.ones_like(values), values, index=array)` computes,
  at each position of `array`, the number of occurrences of that position's
  value inside `values`; `np.where(mask > 0)` then lists the coordinates of
  the positions with a positive occurrence count, in row-major order, one
  coordinate array per axis.

* `array_difference` — `set(array).difference(set(subarray))`, materialised
  as an array: deduplicated elements of `array` that do not occur in
  `subarray`.  (The source works only for 1-D inputs of hashable scalars, as
  its own TODO comment records; the embedding uses scalar elements.)

* `weighted_percentile` — asserts all percentiles lie in `[0, 100]`, sorts
  `values` (permuting `sample_weight` alongside) unless `values_sorted`,
  forms the weighted ranks `100 * (cumsum(w) - w/2) / sum(w)` and linearly
  interpolates the requested percentiles against `(ranks, values)` with
  `np.interp` (clamping outside the rank range).  Numeric values are embedded
  as rationals (`ℚ`); failures are explicit: the `assert` is
  `NpError.invalidArgument`, out-of-range fancy indexing (a too-short
  `sample_weight`) is `NpError.indexError`, and `np.interp`'s length checks
  are `NpError.valueError`.
-/

namespace ArrayTools

/-! ## `array_unique` -/

/-- Little-endian byte string of width `w` for the machine integer `x`
(the raw memory bytes of one array element of itemsize `w`). -/
def bytesLE : Nat → Nat → List Nat
  | 0, _ => []
  | w + 1, x => x % 256 :: bytesLE w (x / 256)

/-- The opaque byte key of a row: the row's raw memory bytes, i.e. the
concatenation of the 8-byte encodings of its elements (itemsize 8,
`np.dtype((np.void, itemsize * shape[1]))`). -/
def rowKey (row : List Nat) : List Nat := row.flatMap (bytesLE 8)

/-- `memcmp` on byte strings: lexicographic strict order, as used to sort
`np.void` keys inside `np.unique`. -/
def keyLt : List Nat → List Nat → Bool
  | [], [] => false
  | [], _ :: _ => true
  | _ :: _, [] => false
  | a :: as, b :: bs => decide (a < b) || (a == b && keyLt as bs)

/-- Non-strict byte-key comparison, used as the sort order. -/
def keyLe (a b : List Nat) : Bool := !keyLt b a

/-- The index of the first occurrence of `k` in `keys` (`np.unique` with
`return_index=True` uses a stable sort, so the reported index of each
distinct value is its first occurrence). -/
def firstIndex : List (List Nat) → List Nat → Nat
  | [], _ => 0
  | k' :: ks, k => if k' = k then 0 else firstIndex ks k + 1

/-- The `unique_rows` index array of `array_unique`: `np.unique` over the
row keys with `return_index=True` yields, for each distinct key in ascending
key order, the index of its first occurrence in the original array. -/
def array_unique_index (rows : List (List Nat)) : List Nat :=
  let keys := rows.map rowKey
  (keys.dedup.mergeSort keyLe).map (fun k => firstIndex keys k)

/-- `array_unique(array)`: the rows of the input at the `unique_rows`
indices (`array[unique_rows]`). -/
def array_unique (rows : List (List Nat)) : List (List Nat) :=
  (array_unique_index rows).map (fun i => rows.getD i [])

/-! ## `where_list` -/

/-- `nd.sum(np.ones_like(values), labels=values, index=x)`: the number of
positions of `values` holding `x` (`0` when `x` does not occur). -/
def labelCount (values : List Nat) (x : Nat) : Nat := values.count x

/-- The positions (in row-major order) of the entries of `array` whose
`labelCount` mask is positive — the positions selected by
`np.where(mask > 0)` on a 2-D array. -/
def where_coords (array : List (List Nat)) (values : List Nat) : List (Nat × Nat) :=
  (List.range array.length).flatMap (fun i =>
    ((List.range (array.getD i []).length).filter
        (fun j => decide (0 < labelCount values ((array.getD i []).getD j 0)))).map
      (fun j => (i, j)))

/-- `where_list(array, values)` for a 2-D `array`: one coordinate array per
axis, in axis order — `(row_indices, col_indices)`. -/
def where_list (array : List (List Nat)) (values : List Nat) : List Nat × List Nat :=
  ((where_coords array values).map Prod.fst, (where_coords array values).map Prod.snd)

/-! ## `array_difference` -/

/-- `np.array(list(set(array).difference(set(subarray))))`: the distinct
elements of `array` that do not occur in `subarray` (scalar, hashable
elements; the set-iteration order is not part of the contract, the embedding
keeps first-occurrence order). -/
def array_difference (array subarray : List Nat) : List Nat :=
  array.dedup.filter (fun x => decide (x ∉ subarray))

/-! ## `weighted_percentile` -/

/-- The failures `weighted_percentile` can raise: the `assert` on the
percentile range (`AssertionError`, the spec's `InvalidArgument`), an
out-of-bounds fancy index (`IndexError`, from `sample_weight[sorter]` when
`sample_weight` is shorter than `values`), and `np.interp`'s shape checks
(`ValueError`). -/
inductive NpError where
  | invalidArgument
  | indexError
  | valueError
deriving DecidableEq

/-- `np.argsort(values)`: a permutation of `0..n-1` listing the positions of
`values` in ascending order of value.  The default `kind='quicksort'` is
unstable, so numpy's order *within a run of tied values* is
implementation-defined; the embedding fixes one definite tie order (a stable
merge sort).  It therefore agrees with numpy exactly on tie-free inputs, and
results about tied inputs can be claimed only where they are insensitive to
the tie order. -/
def argsort (l : List ℚ) : List Nat :=
  (List.range l.length).mergeSort (fun i j => decide (l.getD i 0 ≤ l.getD j 0))

/-- `np.cumsum(l)`: the running sums of `l`. -/
def cumsum (l : List ℚ) : List ℚ :=
  (List.range l.length).map (fun i => (l.take (i + 1)).sum)

/-- The scan of `np.interp` past the first sample point: walking the
remaining points with current left endpoint `p0` (invariant `p0.1 < x`),
interpolate linearly inside the first segment whose right endpoint reaches
`x`, and clamp to the last ordinate when `x` lies beyond every point. -/
def interpGo (x : ℚ) : ℚ × ℚ → List (ℚ × ℚ) → ℚ
  | p0, [] => p0.2
  | p0, p1 :: rest =>
    if x ≤ p1.1 then p0.2 + (x - p0.1) * (p1.2 - p0.2) / (p1.1 - p0.1)
    else interpGo x p1 rest

/-- `np.interp(x, xp, fp)` at one query point, over the sample points
`pts = xp.zip fp` (documented for increasing `xp`): clamp to the first
ordinate at or below the first sample point, otherwise scan. -/
def interp (x : ℚ) : List (ℚ × ℚ) → ℚ
  | [] => 0
  | p0 :: rest => if x ≤ p0.1 then p0.2 else interpGo x p0 rest

/-- The weighted ranks `100 * (np.cumsum(w) - 0.5 * w) / np.sum(w)`. -/
def weightedRanks (w : List ℚ) : List ℚ :=
  ((cumsum w).zip w).map (fun cw => 100 * (cw.1 - cw.2 / 2) / w.sum)

/-- The sorting step: if `values_sorted` the pair is taken as given,
otherwise `values[sorter]` and `sample_weight[sorter]` for
`sorter = np.argsort(values)`; an index of `sorter` outside `sample_weight`
is numpy's `IndexError`. -/
def sortPair (values sw : List ℚ) (values_sorted : Bool) :
    Except NpError (List ℚ × List ℚ) :=
  if values_sorted then .ok (values, sw)
  else
    match (argsort values).mapM (fun i => values[i]?),
        (argsort values).mapM (fun i => sw[i]?) with
    | some v, some w => .ok (v, w)
    | _, _ => .error .indexError

/-- `np.interp(ps, xp, fp)`: raises `ValueError` when `xp` is empty or when
`xp` and `fp` have different lengths, otherwise interpolates each query. -/
def npInterp (ps xp fp : List ℚ) : Except NpError (List ℚ) :=
  if xp.length = 0 ∨ xp.length ≠ fp.length then .error .valueError
  else .ok (ps.map (fun p => interp p (xp.zip fp)))

/-- The "standard (unweighted) percentile computation" of the spec, stated
from the spec's words for comparison with `weighted_percentile` (numpy's
default linear-interpolation percentile): for the sorted values and a
percentile `p`, the fractional index `h = p * (n - 1) / 100` selects the
element at `⌊h⌋` and interpolates toward the next element by the fractional
part of `h`. -/
def standardPercentile (values : List ℚ) (p : ℚ) : ℚ :=
  let sorted := values.mergeSort (fun a b => decide (a ≤ b))
  let n := sorted.length
  let h := p * ((n : ℚ) - 1) / 100
  let i := (Int.floor h).toNat
  if i + 1 < n then
    sorted.getD i 0 + (h - (i : ℚ)) * (sorted.getD (i + 1) 0 - sorted.getD i 0)
  else sorted.getD (n - 1) 0

/-- The computation of `weighted_percentile` past the `assert`: sort, form
the weighted ranks, interpolate. -/
def wpBody (values sw ps : List ℚ) (values_sorted : Bool) : Except NpError (List ℚ) :=
  match sortPair values sw values_sorted with
  | .error e => .error e
  | .ok (v, w) => npInterp ps (weightedRanks w) v

/-- `weighted_percentile(values, percentiles, sample_weight, values_sorted)`:
default weights are `np.ones(len(values))`; the `assert` requires every
percentile in `[0, 100]`; then sort, form the weighted ranks and
interpolate. -/
def weighted_percentile (values percentiles : List ℚ)
    (sample_weight : Option (List ℚ) := none) (values_sorted : Bool := false) :
    Except NpError (List ℚ) :=
  if percentiles.all (fun p => decide (0 ≤ p) && decide (p ≤ 100)) then
    wpBody values (sample_weight.getD (List.replicate values.length 1))
      percentiles values_sorted
  else .error .invalidArgument

/-! ## Theorems -/

/-! ### Byte keys -/

theorem length_bytesLE (w x : Nat) : (bytesLE w x).length = w := by
  induction w generalizing x with
  | zero => rfl
  | succ w ih => simp [bytesLE, ih]

theorem bytesLE_inj {w x y : Nat} (hx : x < 2 ^ (8 * w)) (hy : y < 2 ^ (8 * w))
    (h : bytesLE w x = bytesLE w y) : x = y := by
  induction w generalizing x y with
  | zero => simp at hx hy; omega
  | succ w ih =>
    simp only [bytesLE, List.cons.injEq] at h
    obtain ⟨h1, h2⟩ := h
    have hpow : 2 ^ (8 * (w + 1)) = 2 ^ (8 * w) * 256 := by
      rw [Nat.mul_succ, pow_add]; norm_num
    have hx' : x / 256 < 2 ^ (8 * w) := by
      rw [Nat.div_lt_iff_lt_mul (by norm_num)]
      calc x < 2 ^ (8 * (w + 1)) := hx
        _ = 2 ^ (8 * w) * 256 := hpow
    have hy' : y / 256 < 2 ^ (8 * w) := by
      rw [Nat.div_lt_iff_lt_mul (by norm_num)]
      calc y < 2 ^ (8 * (w + 1)) := hy
        _ = 2 ^ (8 * w) * 256 := hpow
    have := ih hx' hy' h2
    omega

theorem rowKey_cons (a : Nat) (as : List Nat) :
    rowKey (a :: as) = bytesLE 8 a ++ rowKey as := by
  simp [rowKey]

theorem rowKey_inj {r1 r2 : List Nat} (h1 : ∀ x ∈ r1, x < 2 ^ 64)
    (h2 : ∀ x ∈ r2, x < 2 ^ 64) (h : rowKey r1 = rowKey r2) : r1 = r2 := by
  induction r1 generalizing r2 with
  | nil =>
    cases r2 with
    | nil => rfl
    | cons b bs =>
      exfalso
      have hlen := congrArg List.length h
      simp [rowKey, rowKey_cons, length_bytesLE] at hlen
      omega
  | cons a as ih =>
    cases r2 with
    | nil =>
      exfalso
      have hlen := congrArg List.length h
      simp [rowKey, rowKey_cons, length_bytesLE] at hlen
    | cons b bs =>
      rw [rowKey_cons, rowKey_cons] at h
      obtain ⟨hab, hrest⟩ := List.append_inj h (by simp [length_bytesLE])
      have ha : a < 2 ^ (8 * 8) := by
        have := h1 a (by simp)
        norm_num at this ⊢
        exact this
      have hb : b < 2 ^ (8 * 8) := by
        have := h2 b (by simp)
        norm_num at this ⊢
        exact this
      have heq := bytesLE_inj ha hb hab
      have htl := ih (fun x hx => h1 x (by simp [hx])) (fun x hx => h2 x (by simp [hx])) hrest
      simp [heq, htl]

/-! ### The lexicographic byte order -/

theorem keyLt_irrefl (a : List Nat) : keyLt a a = false := by
  induction a with
  | nil => rfl
  | cons x xs ih => simp [keyLt, ih]

theorem keyLt_trans {a b c : List Nat} (hab : keyLt a b = true)
    (hbc : keyLt b c = true) : keyLt a c = true := by
  induction a generalizing b c with
  | nil =>
    cases b with
    | nil => simp [keyLt] at hab
    | cons y ys =>
      cases c with
      | nil => simp [keyLt] at hbc
      | cons z zs => simp [keyLt]
  | cons x xs ih =>
    cases b with
    | nil => simp [keyLt] at hab
    | cons y ys =>
      cases c with
      | nil => simp [keyLt] at hbc
      | cons z zs =>
        simp only [keyLt, Bool.or_eq_true, decide_eq_true_eq, Bool.and_eq_true,
          beq_iff_eq] at hab hbc ⊢
        rcases hab with h1 | ⟨rfl, h1⟩ <;> rcases hbc with h2 | ⟨rfl, h2⟩
        · exact Or.inl (lt_trans h1 h2)
        · exact Or.inl h1
        · exact Or.inl h2
        · exact Or.inr ⟨rfl, ih h1 h2⟩

theorem keyLt_eq_of_not {a b : List Nat} (hab : keyLt a b = false)
    (hba : keyLt b a = false) : a = b := by
  induction a generalizing b with
  | nil =>
    cases b with
    | nil => rfl
    | cons y ys => simp [keyLt] at hab
  | cons x xs ih =>
    cases b with
    | nil => simp [keyLt] at hba
    | cons y ys =>
      by_cases hxy : x = y
      · subst hxy
        simp [keyLt] at hab hba
        rw [ih hab hba]
      · exfalso
        rcases Nat.lt_or_ge x y with hlt | hge
        · simp [keyLt, hlt] at hab
        · have hlt : y < x := lt_of_le_of_ne hge (fun hc => hxy hc.symm)
          simp [keyLt, hlt] at hba

theorem keyLe_trans : ∀ a b c : List Nat,
    keyLe a b = true → keyLe b c = true → keyLe a c = true := by
  intro a b c hab hbc
  simp only [keyLe, Bool.not_eq_true'] at hab hbc ⊢
  cases hca : keyLt c a with
  | false => rfl
  | true =>
    exfalso
    cases hx : keyLt a b with
    | true =>
      have hcb := keyLt_trans hca hx
      rw [hcb] at hbc
      exact Bool.noConfusion hbc
    | false =>
      have hab' : a = b := keyLt_eq_of_not hx hab
      subst hab'
      rw [hca] at hbc
      exact Bool.noConfusion hbc

theorem keyLe_total : ∀ a b : List Nat, (keyLe a b || keyLe b a) = true := by
  intro a b
  simp only [keyLe, Bool.or_eq_true, Bool.not_eq_true']
  cases h1 : keyLt a b with
  | false => exact Or.inr rfl
  | true =>
    cases h2 : keyLt b a with
    | false => exact Or.inl rfl
    | true =>
      exfalso
      have haa := keyLt_trans h1 h2
      rw [keyLt_irrefl] at haa
      exact Bool.noConfusion haa

/-! ### `array_unique` structure -/

theorem firstIndex_lt_length {keys : List (List Nat)} {k : List Nat}
    (h : k ∈ keys) : firstIndex keys k < keys.length := by
  induction keys with
  | nil => simp at h
  | cons k' ks ih =>
    by_cases he : k' = k
    · simp [firstIndex, he]
    · have hk : k ∈ ks := by
        rcases List.mem_cons.mp h with hh | hm
        · exact absurd hh.symm he
        · exact hm
      simp only [firstIndex, he, if_false, List.length_cons]
      exact Nat.succ_lt_succ (ih hk)

theorem getD_firstIndex {keys : List (List Nat)} {k : List Nat} (h : k ∈ keys) :
    keys.getD (firstIndex keys k) [] = k := by
  induction keys with
  | nil => simp at h
  | cons k' ks ih =>
    by_cases he : k' = k
    · simp [firstIndex, he]
    · have hk : k ∈ ks := by
        rcases List.mem_cons.mp h with hh | hm
        · exact absurd hh.symm he
        · exact hm
      simp only [firstIndex, he, if_false, List.getD_cons_succ]
      exact ih hk

/-- A lawful-`BEq` version of "in a duplicate-free list every member is
counted once". -/
theorem count_eq_one_of_nodup_mem {α : Type} [BEq α] [LawfulBEq α]
    {l : List α} {a : α} (hnd : l.Nodup) (ha : a ∈ l) : l.count a = 1 := by
  induction l with
  | nil => simp at ha
  | cons x xs ih =>
    rcases List.mem_cons.mp ha with rfl | hmem
    · have hx : a ∉ xs := (List.nodup_cons.mp hnd).1
      rw [List.count_cons_self, List.count_eq_zero.mpr hx]
    · have hne : a ≠ x := by
        rintro rfl
        exact (List.nodup_cons.mp hnd).1 hmem
      rw [List.count_cons_of_ne hne, ih (List.nodup_cons.mp hnd).2 hmem]

theorem array_unique_eq (rows : List (List Nat)) :
    array_unique rows = ((rows.map rowKey).dedup.mergeSort keyLe).map
      (fun k => rows.getD (firstIndex (rows.map rowKey) k) []) := by
  simp [array_unique, array_unique_index, List.map_map, Function.comp]

theorem mem_keys_of_mem_sorted {rows : List (List Nat)} {k : List Nat}
    (hk : k ∈ (rows.map rowKey).dedup.mergeSort keyLe) : k ∈ rows.map rowKey :=
  List.mem_dedup.mp ((List.mergeSort_perm _ keyLe).mem_iff.mp hk)

theorem array_unique_index_mem (rows : List (List Nat)) :
    ∀ i ∈ array_unique_index rows, i < rows.length := by
  intro i hi
  simp only [array_unique_index, List.mem_map] at hi
  obtain ⟨k, hk, rfl⟩ := hi
  have hkmem : k ∈ rows.map rowKey := mem_keys_of_mem_sorted hk
  have := firstIndex_lt_length hkmem
  simpa using this

theorem rowKey_getD_firstIndex {rows : List (List Nat)} {k : List Nat}
    (hk : k ∈ rows.map rowKey) :
    rowKey (rows.getD (firstIndex (rows.map rowKey) k) []) = k := by
  have hlt' : firstIndex (rows.map rowKey) k < rows.length := by
    have := firstIndex_lt_length hk
    simpa using this
  have hgd := getD_firstIndex hk
  rw [List.getD_eq_getElem _ [] (by simpa using hlt'), List.getElem_map] at hgd
  rw [List.getD_eq_getElem rows [] hlt']
  exact hgd

theorem array_unique_nodup (rows : List (List Nat)) : (array_unique rows).Nodup := by
  rw [array_unique_eq]
  have hnd : ((rows.map rowKey).dedup.mergeSort keyLe).Nodup :=
    ((List.mergeSort_perm _ keyLe).nodup_iff).mpr (List.nodup_dedup _)
  refine List.Nodup.map_on ?_ hnd
  intro k1 hk1 k2 hk2 heq
  have e1 := rowKey_getD_firstIndex (mem_keys_of_mem_sorted hk1)
  have e2 := rowKey_getD_firstIndex (mem_keys_of_mem_sorted hk2)
  rw [← e1, ← e2, heq]

/-- **C1.** For every 2-D input array (of machine integers, i.e. each element
below `2 ^ 64`), `array_unique` returns an array in which every row occurs in
the input, every distinct row-value of the input appears exactly once, and
the number of output rows is at most the number of input rows. -/
theorem array_unique_spec (rows : List (List Nat))
    (hbound : ∀ r ∈ rows, ∀ x ∈ r, x < 2 ^ 64) :
    (∀ r ∈ array_unique rows, r ∈ rows) ∧
    (∀ r ∈ rows, (array_unique rows).count r = 1) ∧
    (array_unique rows).length ≤ rows.length := by
  have hsub : ∀ r ∈ array_unique rows, r ∈ rows := by
    intro r hr
    simp only [array_unique, List.mem_map] at hr
    obtain ⟨i, hi, rfl⟩ := hr
    have hlt := array_unique_index_mem rows i hi
    rw [List.getD_eq_getElem rows [] hlt]
    exact List.getElem_mem hlt
  refine ⟨hsub, ?_, ?_⟩
  · intro r hr
    apply count_eq_one_of_nodup_mem (array_unique_nodup rows)
    rw [array_unique_eq]
    have hkmem : rowKey r ∈ rows.map rowKey := List.mem_map_of_mem rowKey hr
    have hksorted : rowKey r ∈ (rows.map rowKey).dedup.mergeSort keyLe :=
      (List.mergeSort_perm _ keyLe).mem_iff.mpr (List.mem_dedup.mpr hkmem)
    refine List.mem_map.mpr ⟨rowKey r, hksorted, ?_⟩
    have hkey := rowKey_getD_firstIndex hkmem
    have hmem' : rows.getD (firstIndex (rows.map rowKey) (rowKey r)) [] ∈ rows := by
      have hlt : firstIndex (rows.map rowKey) (rowKey r) < rows.length := by
        have := firstIndex_lt_length hkmem
        simpa using this
      rw [List.getD_eq_getElem rows [] hlt]
      exact List.getElem_mem hlt
    exact rowKey_inj (hbound _ hmem') (hbound _ hr) hkey
  · rw [array_unique_eq, List.length_map]
    calc ((rows.map rowKey).dedup.mergeSort keyLe).length
        = (rows.map rowKey).dedup.length := (List.mergeSort_perm _ keyLe).length_eq
      _ ≤ (rows.map rowKey).length := (List.dedup_sublist _).length_le
      _ = rows.length := List.length_map _ _

/-- Witness for C1 at the docstring example. -/
theorem array_unique_spec_witness :
    (∀ r ∈ ([[0, 1, 2, 3, 4], [0, 1, 2, 3, 4], [0, 1, 2, 3, 4],
        [1, 2, 3, 4, 5], [1, 2, 3, 4, 5]] : List (List Nat)), ∀ x ∈ r, x < 2 ^ 64) ∧
    ((∀ r ∈ array_unique [[0, 1, 2, 3, 4], [0, 1, 2, 3, 4], [0, 1, 2, 3, 4],
        [1, 2, 3, 4, 5], [1, 2, 3, 4, 5]],
        r ∈ [[0, 1, 2, 3, 4], [0, 1, 2, 3, 4], [0, 1, 2, 3, 4],
          [1, 2, 3, 4, 5], [1, 2, 3, 4, 5]]) ∧
      (∀ r ∈ ([[0, 1, 2, 3, 4], [0, 1, 2, 3, 4], [0, 1, 2, 3, 4],
          [1, 2, 3, 4, 5], [1, 2, 3, 4, 5]] : List (List Nat)),
        (array_unique [[0, 1, 2, 3, 4], [0, 1, 2, 3, 4], [0, 1, 2, 3, 4],
          [1, 2, 3, 4, 5], [1, 2, 3, 4, 5]]).count r = 1) ∧
      (array_unique [[0, 1, 2, 3, 4], [0, 1, 2, 3, 4], [0, 1, 2, 3, 4],
          [1, 2, 3, 4, 5], [1, 2, 3, 4, 5]]).length ≤
        ([[0, 1, 2, 3, 4], [0, 1, 2, 3, 4], [0, 1, 2, 3, 4],
          [1, 2, 3, 4, 5], [1, 2, 3, 4, 5]] : List (List Nat)).length) :=
  ⟨by decide, array_unique_spec _ (by decide)⟩

/-- **C6.** The rows of `array_unique`'s output are in strictly ascending
order of their opaque byte keys (sort-then-dedup order), and the returned
indices point into the original array (each index is in range) with the
output reproduced by indexing the input at them. -/
theorem array_unique_order_spec (rows : List (List Nat)) :
    List.Pairwise (fun k1 k2 => keyLt k1 k2 = true) ((array_unique rows).map rowKey) ∧
    (∀ i ∈ array_unique_index rows, i < rows.length) ∧
    array_unique rows = (array_unique_index rows).map (fun i => rows.getD i []) := by
  refine ⟨?_, array_unique_index_mem rows, rfl⟩
  have hmapkey : (array_unique rows).map rowKey =
      (rows.map rowKey).dedup.mergeSort keyLe := by
    rw [array_unique_eq, List.map_map]
    have hcong : ∀ k ∈ (rows.map rowKey).dedup.mergeSort keyLe,
        (rowKey ∘ fun k => rows.getD (firstIndex (rows.map rowKey) k) []) k = id k := by
      intro k hk
      exact rowKey_getD_firstIndex (mem_keys_of_mem_sorted hk)
    rw [List.map_congr_left hcong, List.map_id]
  rw [hmapkey]
  have hsorted : List.Pairwise (fun a b => keyLe a b = true)
      ((rows.map rowKey).dedup.mergeSort keyLe) :=
    List.sorted_mergeSort keyLe_trans keyLe_total _
  have hnodup : ((rows.map rowKey).dedup.mergeSort keyLe).Nodup :=
    ((List.mergeSort_perm _ keyLe).nodup_iff).mpr (List.nodup_dedup _)
  refine (hsorted.and hnodup).imp ?_
  rintro a b ⟨hle, hne⟩
  cases hx : keyLt a b with
  | true => rfl
  | false =>
    exfalso
    rw [keyLe, Bool.not_eq_true'] at hle
    exact hne (keyLt_eq_of_not hx hle)

/-- **C2.** For every 2-D array `A` of non-negative integers and every query
list `V`, `where_list(A, V)` returns one coordinate array per axis, of equal
lengths, and a coordinate pair `(i, j)` is listed exactly when it is a
position of `A` whose value belongs to `V`: every returned coordinate points
to a position whose value is in `V`, and every such position is returned. -/
theorem where_list_spec (a : List (List Nat)) (vs : List Nat) :
    (where_list a vs).1.length = (where_list a vs).2.length ∧
    ∀ i j, ((i, j) ∈ (where_list a vs).1.zip (where_list a vs).2 ↔
      i < a.length ∧ j < (a.getD i []).length ∧ (a.getD i []).getD j 0 ∈ vs) := by
  constructor
  · simp [where_list]
  · intro i j
    have hzip : (where_list a vs).1.zip (where_list a vs).2 = where_coords a vs := by
      simp [where_list, List.zip_map']
    rw [hzip]
    simp only [where_coords, List.mem_flatMap, List.mem_map, List.mem_filter,
      List.mem_range, labelCount]
    constructor
    · rintro ⟨i', hi', j', ⟨hj', hcount⟩, hij⟩
      obtain ⟨rfl, rfl⟩ := Prod.mk.injEq .. ▸ hij
      refine ⟨hi', hj', ?_⟩
      exact List.count_pos_iff.mp (by simp_all)
    · rintro ⟨hi, hj, hmem⟩
      exact ⟨i, hi, j, ⟨hj, by simpa using List.count_pos_iff.mpr hmem⟩, rfl⟩

/-- **C4.** `array_difference(array, subarray)` returns exactly the elements
of `array` that do not occur in `subarray`, with duplicates collapsed: an
element is in the result iff it is in `array` and not in `subarray` (so the
result is a subset of `array` and disjoint from `subarray`), the result has
no duplicates, applying the operation again with the same `subarray` changes
nothing, and when `array` and `subarray` have identical content the result
is empty. -/
theorem array_difference_spec (a b : List Nat) :
    (∀ x, x ∈ array_difference a b ↔ x ∈ a ∧ x ∉ b) ∧
    (array_difference a b).Nodup ∧
    array_difference (array_difference a b) b = array_difference a b ∧
    ((∀ x, x ∈ a ↔ x ∈ b) → array_difference a b = []) := by
  have hmem : ∀ x, x ∈ array_difference a b ↔ x ∈ a ∧ x ∉ b := by
    intro x
    simp [array_difference, List.mem_filter, List.mem_dedup]
  have hnodup : (array_difference a b).Nodup :=
    List.Nodup.filter _ (List.nodup_dedup a)
  refine ⟨hmem, hnodup, ?_, ?_⟩
  · calc array_difference (array_difference a b) b
        = (array_difference a b).dedup.filter (fun x => decide (x ∉ b)) := rfl
      _ = (array_difference a b).filter (fun x => decide (x ∉ b)) := by
          rw [List.dedup_eq_self.mpr hnodup]
      _ = array_difference a b :=
          List.filter_eq_self.mpr (fun x hx => decide_eq_true ((hmem x).mp hx).2)
  · intro hab
    apply List.filter_eq_nil_iff.mpr
    intro x hx
    simp only [decide_eq_true_eq, Decidable.not_not]
    exact (hab x).mp (List.mem_dedup.mp hx)

/-! ### `weighted_percentile`: error structure -/

theorem sortPair_cases (values sw : List ℚ) (b : Bool) :
    (∃ p, sortPair values sw b = .ok p) ∨
      sortPair values sw b = .error .indexError := by
  unfold sortPair
  split
  · exact Or.inl ⟨_, rfl⟩
  · split
    · exact Or.inl ⟨_, rfl⟩
    · exact Or.inr rfl

theorem npInterp_cases (ps xp fp : List ℚ) :
    npInterp ps xp fp = .error .valueError ∨
      (xp.length ≠ 0 ∧ xp.length = fp.length ∧
        npInterp ps xp fp = .ok (ps.map (fun p => interp p (xp.zip fp)))) := by
  unfold npInterp
  split
  · exact Or.inl rfl
  · rename_i hcond
    push_neg at hcond
    exact Or.inr ⟨hcond.1, hcond.2, rfl⟩

theorem wpBody_ne_invalidArgument (values sw ps : List ℚ) (b : Bool) :
    wpBody values sw ps b ≠ .error .invalidArgument := by
  unfold wpBody
  rcases sortPair_cases values sw b with ⟨⟨v, w⟩, hp⟩ | hp <;> rw [hp]
  · rcases npInterp_cases ps (weightedRanks w) v with hc | ⟨_, _, hc⟩ <;>
      simp [hc]
  · intro hcon
    injection hcon with h
    exact NpError.noConfusion h

/-- **C3.** `weighted_percentile` fails with the `InvalidArgument` condition
(the `assert`) if and only if some requested percentile lies outside
`[0, 100]`; when every percentile is inside `[0, 100]` no such failure
occurs. -/
theorem weighted_percentile_invalidArgument_iff (values ps : List ℚ)
    (sw : Option (List ℚ)) (b : Bool) :
    weighted_percentile values ps sw b = .error .invalidArgument ↔
      ∃ p ∈ ps, p < 0 ∨ 100 < p := by
  unfold weighted_percentile
  split
  · rename_i hall
    rw [List.all_eq_true] at hall
    constructor
    · intro h
      exact absurd h (wpBody_ne_invalidArgument _ _ _ _)
    · rintro ⟨p, hmem, hout⟩
      have := hall p hmem
      simp only [Bool.and_eq_true, decide_eq_true_eq] at this
      rcases hout with h | h
      · linarith [this.1]
      · linarith [this.2]
  · rename_i hall
    rw [List.all_eq_true] at hall
    push_neg at hall
    obtain ⟨p, hmem, hp⟩ := hall
    have hp' : p < 0 ∨ 100 < p := by
      by_contra hc
      push_neg at hc
      exact hp (by simp [hc.1, hc.2])
    exact ⟨fun _ => ⟨p, hmem, hp'⟩, fun _ => rfl⟩

/-- **C8 (amended).** A mismatched `sample_weight` length never produces the
`InvalidArgument` condition: with every percentile inside `[0, 100]`,
`weighted_percentile` with a `sample_weight` of a different length than
`values` does not fail with `InvalidArgument` (it returns a result or fails
with an index/length error instead). -/
theorem weighted_percentile_mismatch_no_invalidArgument
    (values ps sw : List ℚ) (b : Bool)
    (hps : ∀ p ∈ ps, 0 ≤ p ∧ p ≤ 100) (_hlen : sw.length ≠ values.length) :
    weighted_percentile values ps (some sw) b ≠ .error .invalidArgument := by
  intro h
  rw [weighted_percentile_invalidArgument_iff] at h
  obtain ⟨p, hmem, hout⟩ := h
  have := hps p hmem
  rcases hout with h | h
  · linarith [this.1]
  · linarith [this.2]

/-- Witness for the amended C8: a longer `sample_weight` with an in-range
percentile does not produce `InvalidArgument`. -/
theorem weighted_percentile_mismatch_no_invalidArgument_witness :
    weighted_percentile [1, 2] [50] (some [1, 1, 5]) false ≠
      .error .invalidArgument :=
  weighted_percentile_mismatch_no_invalidArgument [1, 2] [50] [1, 1, 5] false
    (by norm_num) (by norm_num)

/-! ### `weighted_percentile`: the sorting stage -/

theorem mapM_getElem_eq {l : List ℚ} {idx : List Nat}
    (h : ∀ i ∈ idx, i < l.length) :
    idx.mapM (fun i => l[i]?) = some (idx.map (fun i => l.getD i 0)) := by
  induction idx with
  | nil => rfl
  | cons i is ih =>
    rw [List.mapM_cons]
    have hi : i < l.length := h i (by simp)
    rw [List.getElem?_eq_getElem hi, ih (fun j hj => h j (by simp [hj]))]
    simp [List.getD, List.getElem?_eq_getElem hi]

theorem argsort_mem_lt (l : List ℚ) : ∀ i ∈ argsort l, i < l.length := by
  intro i hi
  have hmem : i ∈ List.range l.length := (List.mergeSort_perm _ _).mem_iff.mp hi
  exact List.mem_range.mp hmem

theorem argsort_pairwise (l : List ℚ) :
    List.Pairwise (fun i j => l.getD i 0 ≤ l.getD j 0) (argsort l) := by
  have htrans : ∀ a b c : Nat, (fun i j => decide (l.getD i 0 ≤ l.getD j 0)) a b = true →
      (fun i j => decide (l.getD i 0 ≤ l.getD j 0)) b c = true →
      (fun i j => decide (l.getD i 0 ≤ l.getD j 0)) a c = true := by
    intro a b c hab hbc
    simp only [decide_eq_true_eq] at hab hbc ⊢
    exact le_trans hab hbc
  have htotal : ∀ a b : Nat, ((fun i j => decide (l.getD i 0 ≤ l.getD j 0)) a b ||
      (fun i j => decide (l.getD i 0 ≤ l.getD j 0)) b a) = true := by
    intro a b
    simp only [Bool.or_eq_true, decide_eq_true_eq]
    exact le_total _ _
  have := List.sorted_mergeSort htrans htotal (List.range l.length)
  exact this.imp (fun h => of_decide_eq_true h)

theorem range_map_getD (l : List ℚ) :
    (List.range l.length).map (fun i => l.getD i 0) = l := by
  apply List.ext_getElem (by simp)
  intro n h1 h2
  simp only [List.getElem_map, List.getElem_range]
  exact List.getD_eq_getElem l 0 h2

theorem argsort_of_sorted {l : List ℚ} (h : List.Pairwise (· ≤ ·) l) :
    argsort l = List.range l.length := by
  apply List.mergeSort_of_sorted
  have hpw := List.pairwise_lt_range l.length
  refine List.Pairwise.imp_of_mem ?_ hpw
  intro i j hi hj hij
  have hi' : i < l.length := List.mem_range.mp hi
  have hj' : j < l.length := List.mem_range.mp hj
  have hle : l[i] ≤ l[j] := List.pairwise_iff_getElem.mp h i j hi' hj' hij
  rw [List.getD_eq_getElem l 0 hi', List.getD_eq_getElem l 0 hj']
  exact decide_eq_true hle

theorem sortPair_false_of_sorted {values sw : List ℚ}
    (hs : List.Pairwise (· ≤ ·) values) (hlen : sw.length = values.length) :
    sortPair values sw false = .ok (values, sw) := by
  unfold sortPair
  rw [if_neg (by simp)]
  rw [argsort_of_sorted hs]
  rw [mapM_getElem_eq (fun i hi => List.mem_range.mp hi)]
  rw [mapM_getElem_eq (fun i hi => by rw [hlen]; exact List.mem_range.mp hi)]
  rw [range_map_getD]
  have hsw : (List.range values.length).map (fun i => sw.getD i 0) = sw := by
    rw [← hlen]
    exact range_map_getD sw
  rw [hsw]

/-- **C9.** For a single-element `values` and any percentiles inside
`[0, 100]` (with the default uniform weight), `weighted_percentile` returns
that single element's value for every requested percentile. -/
theorem weighted_percentile_single (v : ℚ) (ps : List ℚ)
    (hps : ∀ p ∈ ps, 0 ≤ p ∧ p ≤ 100) :
    weighted_percentile [v] ps none false = .ok (ps.map (fun _ => v)) := by
  unfold weighted_percentile
  rw [if_pos ?hall]
  case hall =>
    rw [List.all_eq_true]
    intro p hp
    simp [(hps p hp).1, (hps p hp).2]
  unfold wpBody
  have hrep : (none : Option (List ℚ)).getD
      (List.replicate ([v] : List ℚ).length 1) = [1] := by
    simp [List.replicate]
  rw [hrep, sortPair_false_of_sorted (by simp) (by simp)]
  show npInterp ps (weightedRanks [1]) [v] = .ok (ps.map fun _ => v)
  have hranks : weightedRanks [1] = [50] := by
    norm_num [weightedRanks, cumsum, List.range_succ]
  rw [hranks]
  unfold npInterp
  rw [if_neg (by simp)]
  congr 1
  apply List.map_congr_left
  intro p _
  show interp p [((50 : ℚ), v)] = v
  simp only [interp]
  split
  · rfl
  · rfl

/-- Witness for C9: `values=[7]` yields `7` at the percentiles
`0`, `50` and `100`. -/
theorem weighted_percentile_single_witness :
    weighted_percentile [7] [0, 50, 100] none false = .ok [7, 7, 7] := by
  have := weighted_percentile_single 7 [0, 50, 100] (by norm_num)
  simpa using this

/-- **C5 (counterexample).** With uniform weights the result does *not*
always equal the standard unweighted percentile computation: on
`values = [1,2,3,4,5]` at the 25th percentile, `weighted_percentile`
returns `7/4 = 1.75` while the standard linear percentile is `2`. -/
theorem weighted_percentile_not_standard :
    weighted_percentile [1, 2, 3, 4, 5] [25] none false = .ok [7 / 4] ∧
    standardPercentile [1, 2, 3, 4, 5] 25 = 2 ∧ ((7 : ℚ) / 4) ≠ 2 := by
  refine ⟨?_, ?_, by norm_num⟩
  · unfold weighted_percentile
    rw [if_pos (by norm_num)]
    unfold wpBody
    have hrep : (none : Option (List ℚ)).getD
        (List.replicate ([1, 2, 3, 4, 5] : List ℚ).length 1) = [1, 1, 1, 1, 1] := by
      simp [List.replicate]
    rw [hrep, sortPair_false_of_sorted (by norm_num [List.pairwise_cons]) (by simp)]
    show npInterp _ (weightedRanks [1, 1, 1, 1, 1]) _ = _
    have hranks : weightedRanks [1, 1, 1, 1, 1] = [10, 30, 50, 70, 90] := by
      norm_num [weightedRanks, cumsum, List.range_succ]
    rw [hranks]
    unfold npInterp
    rw [if_neg (by simp)]
    norm_num [interp, interpGo]
  · unfold standardPercentile
    rw [List.mergeSort_of_sorted (by norm_num [List.pairwise_cons])]
    norm_num

/-- **C5 (amended).** With uniform weights `weighted_percentile`
interpolates against the midpoint ranks `100·(i + 1/2)/n`, which agrees with
the documented example — `values = [1,2,3,4,5]` at `[0, 50, 100]` yields
exactly `[1, 3, 5]` — but at intermediate percentiles generally differs from
the standard linear unweighted percentile (the 25th percentile gives
`7/4`). -/
theorem weighted_percentile_uniform_example :
    weighted_percentile [1, 2, 3, 4, 5] [0, 50, 100] none false = .ok [1, 3, 5] ∧
    weighted_percentile [1, 2, 3, 4, 5] [25] none false = .ok [7 / 4] := by
  constructor
  · unfold weighted_percentile
    rw [if_pos (by norm_num)]
    unfold wpBody
    have hrep : (none : Option (List ℚ)).getD
        (List.replicate ([1, 2, 3, 4, 5] : List ℚ).length 1) = [1, 1, 1, 1, 1] := by
      simp [List.replicate]
    rw [hrep, sortPair_false_of_sorted (by norm_num [List.pairwise_cons]) (by simp)]
    show npInterp _ (weightedRanks [1, 1, 1, 1, 1]) _ = _
    have hranks : weightedRanks [1, 1, 1, 1, 1] = [10, 30, 50, 70, 90] := by
      norm_num [weightedRanks, cumsum, List.range_succ]
    rw [hranks]
    unfold npInterp
    rw [if_neg (by simp)]
    norm_num [interp, interpGo]
  · unfold weighted_percentile
    rw [if_pos (by norm_num)]
    unfold wpBody
    have hrep : (none : Option (List ℚ)).getD
        (List.replicate ([1, 2, 3, 4, 5] : List ℚ).length 1) = [1, 1, 1, 1, 1] := by
      simp [List.replicate]
    rw [hrep, sortPair_false_of_sorted (by norm_num [List.pairwise_cons]) (by simp)]
    show npInterp _ (weightedRanks [1, 1, 1, 1, 1]) _ = _
    have hranks : weightedRanks [1, 1, 1, 1, 1] = [10, 30, 50, 70, 90] := by
      norm_num [weightedRanks, cumsum, List.range_succ]
    rw [hranks]
    unfold npInterp
    rw [if_neg (by simp)]
    norm_num [interp, interpGo]

/-- **C8 (counterexample).** A call with `sample_weight` longer than
`values` does not fail at all: with `values = [1,2]`, `percentiles = [50]`
and `sample_weight = [1,1,5]` the function returns the result `[3/2]`
(computed from the first two weights under the sort permutation) instead of
failing fast with `InvalidArgument`. -/
theorem weighted_percentile_mismatch_returns :
    weighted_percentile [1, 2] [50] (some [1, 1, 5]) false = .ok [3 / 2] := by
  unfold weighted_percentile
  rw [if_pos (by norm_num)]
  unfold wpBody
  simp only [Option.getD_some]
  have hsp : sortPair [1, 2] [1, 1, 5] false = .ok ([1, 2], [1, 1]) := by
    unfold sortPair
    rw [if_neg (by simp)]
    rw [argsort_of_sorted (by norm_num [List.pairwise_cons])]
    rw [mapM_getElem_eq (fun i hi => List.mem_range.mp hi)]
    rw [mapM_getElem_eq (fun i hi => by
      have := List.mem_range.mp hi
      simp at this ⊢
      omega)]
    norm_num [List.range_succ]
  rw [hsp]
  show npInterp _ (weightedRanks [1, 1]) _ = _
  have hranks : weightedRanks [1, 1] = [25, 75] := by
    norm_num [weightedRanks, cumsum, List.range_succ]
  rw [hranks]
  unfold npInterp
  rw [if_neg (by simp)]
  norm_num [interp, interpGo]

/-! ### `np.interp` is monotone in its query over nondecreasing ordinates -/

theorem interpGo_lb (x : ℚ) (pts : List (ℚ × ℚ)) (p0 : ℚ × ℚ)
    (hpw : List.Pairwise (fun a b : ℚ × ℚ => a.2 ≤ b.2) (p0 :: pts))
    (hx : p0.1 < x) : p0.2 ≤ interpGo x p0 pts := by
  induction pts generalizing p0 with
  | nil => simp [interpGo]
  | cons p1 rest ih =>
    have hy01 : p0.2 ≤ p1.2 := (List.pairwise_cons.mp hpw).1 p1 (by simp)
    rw [interpGo]
    split
    · rename_i hle
      have hd : 0 < p1.1 - p0.1 := by linarith
      have hnum : 0 ≤ (x - p0.1) * (p1.2 - p0.2) := by
        apply mul_nonneg <;> linarith
      have hdiv : 0 ≤ (x - p0.1) * (p1.2 - p0.2) / (p1.1 - p0.1) :=
        div_nonneg hnum hd.le
      linarith
    · rename_i hgt
      push_neg at hgt
      exact le_trans hy01 (ih p1 (List.pairwise_cons.mp hpw).2 hgt)

theorem interpGo_mono {x x' : ℚ} (hxx : x ≤ x') (pts : List (ℚ × ℚ)) (p0 : ℚ × ℚ)
    (hpw : List.Pairwise (fun a b : ℚ × ℚ => a.2 ≤ b.2) (p0 :: pts))
    (hx : p0.1 < x) : interpGo x p0 pts ≤ interpGo x' p0 pts := by
  induction pts generalizing p0 with
  | nil => simp [interpGo]
  | cons p1 rest ih =>
    have hy01 : p0.2 ≤ p1.2 := (List.pairwise_cons.mp hpw).1 p1 (by simp)
    simp only [interpGo]
    by_cases h' : x' ≤ p1.1
    · rw [if_pos (le_trans hxx h'), if_pos h']
      have hd : 0 < p1.1 - p0.1 := by linarith
      have hmul : (x - p0.1) * (p1.2 - p0.2) ≤ (x' - p0.1) * (p1.2 - p0.2) :=
        mul_le_mul_of_nonneg_right (by linarith) (by linarith)
      have hdiv := (div_le_div_iff_of_pos_right hd).mpr hmul
      linarith
    · push_neg at h'
      by_cases hle : x ≤ p1.1
      · rw [if_pos hle, if_neg (not_le.mpr h')]
        have hlb := interpGo_lb x' rest p1 (List.pairwise_cons.mp hpw).2 h'
        have hd : 0 < p1.1 - p0.1 := by linarith
        have hub : p0.2 + (x - p0.1) * (p1.2 - p0.2) / (p1.1 - p0.1) ≤ p1.2 := by
          have hmul : (x - p0.1) * (p1.2 - p0.2) ≤ (p1.1 - p0.1) * (p1.2 - p0.2) :=
            mul_le_mul_of_nonneg_right (by linarith) (by linarith)
          have hdiv := (div_le_div_iff_of_pos_right hd).mpr hmul
          have hcan : (p1.1 - p0.1) * (p1.2 - p0.2) / (p1.1 - p0.1) = p1.2 - p0.2 :=
            mul_div_cancel_left₀ _ (ne_of_gt hd)
          rw [hcan] at hdiv
          linarith
        linarith
      · push_neg at hle
        rw [if_neg (not_le.mpr hle), if_neg (not_le.mpr h')]
        exact ih p1 (List.pairwise_cons.mp hpw).2 hle

theorem interp_mono {x x' : ℚ} (hxx : x ≤ x') (pts : List (ℚ × ℚ))
    (hpw : List.Pairwise (fun a b : ℚ × ℚ => a.2 ≤ b.2) pts) :
    interp x pts ≤ interp x' pts := by
  cases pts with
  | nil => simp [interp]
  | cons p0 rest =>
    simp only [interp]
    by_cases h0 : x' ≤ p0.1
    · rw [if_pos (le_trans hxx h0), if_pos h0]
    · push_neg at h0
      by_cases h0' : x ≤ p0.1
      · rw [if_pos h0', if_neg (not_le.mpr h0)]
        have hlb := interpGo_lb x' rest p0 hpw h0
        have hy0 : p0.2 ≤ interpGo x' p0 rest := hlb
        exact hy0
      · push_neg at h0'
        rw [if_neg (not_le.mpr h0'), if_neg (not_le.mpr h0)]
        exact interpGo_mono hxx rest p0 hpw h0'

theorem sortPair_false_ok {values sw v w : List ℚ}
    (h : sortPair values sw false = .ok (v, w)) :
    v = (argsort values).map (fun i => values.getD i 0) := by
  unfold sortPair at h
  rw [if_neg (by simp)] at h
  rw [mapM_getElem_eq (argsort_mem_lt values)] at h
  rcases hm : (argsort values).mapM (fun i => sw[i]?) with _ | w'
  · rw [hm] at h
    exact absurd h (by simp)
  · rw [hm] at h
    injection h with h'
    injection h' with h1 h2
    exact h1.symm

theorem sortPair_false_ok_sorted {values sw v w : List ℚ}
    (h : sortPair values sw false = .ok (v, w)) : List.Pairwise (· ≤ ·) v := by
  rw [sortPair_false_ok h]
  exact List.pairwise_map.mpr (argsort_pairwise values)

/-- **C7.** For every non-empty `values` with nonnegative weights (the
documented domain, in which the weighted ranks are nondecreasing) and every
pair of requested percentiles `p1 < p2` inside `[0, 100]`, the result that
`weighted_percentile` computes for `p1` is at most the result for `p2`. -/
theorem weighted_percentile_mono (values sw : List ℚ) (p1 p2 : ℚ) (rs : List ℚ)
    (_hw : ∀ x ∈ sw, 0 ≤ x) (_hne : values ≠ [])
    (hp1 : 0 ≤ p1) (h12 : p1 < p2) (hp2 : p2 ≤ 100)
    (hok : weighted_percentile values [p1, p2] (some sw) false = .ok rs) :
    ∃ r1 r2, rs = [r1, r2] ∧ r1 ≤ r2 := by
  unfold weighted_percentile at hok
  rw [if_pos ?hall] at hok
  case hall =>
    rw [List.all_eq_true]
    intro p hp
    rcases List.mem_cons.mp hp with rfl | hp'
    · simp only [Bool.and_eq_true, decide_eq_true_eq]
      exact ⟨hp1, le_trans (le_of_lt h12) hp2⟩
    · rcases List.mem_cons.mp hp' with rfl | hnil
      · simp only [Bool.and_eq_true, decide_eq_true_eq]
        exact ⟨le_trans hp1 (le_of_lt h12), hp2⟩
      · simp at hnil
  simp only [Option.getD_some] at hok
  unfold wpBody at hok
  rcases sortPair_cases values sw false with ⟨⟨v, w⟩, hsp⟩ | hsp
  · rw [hsp] at hok
    have hok' : npInterp [p1, p2] (weightedRanks w) v = .ok rs := hok
    rcases npInterp_cases [p1, p2] (weightedRanks w) v with hc | ⟨_, hlen, hc⟩
    · rw [hc] at hok'
      exact absurd hok' (by simp)
    · rw [hc] at hok'
      injection hok' with hrs
      have hsnd : ((weightedRanks w).zip v).map Prod.snd = v :=
        List.map_snd_zip _ _ (le_of_eq hlen.symm)
      have hpw : List.Pairwise (fun a b : ℚ × ℚ => a.2 ≤ b.2)
          ((weightedRanks w).zip v) := by
        have hv := sortPair_false_ok_sorted hsp
        rw [← hsnd] at hv
        exact List.pairwise_map.mp hv
      refine ⟨interp p1 ((weightedRanks w).zip v),
        interp p2 ((weightedRanks w).zip v), ?_, ?_⟩
      · rw [← hrs]
        simp
      · exact interp_mono (le_of_lt h12) _ hpw
  · rw [hsp] at hok
    exact absurd hok (by simp)

/-- Witness for C7 at a concrete input. -/
theorem weighted_percentile_mono_witness :
    ∃ r1 r2, ([1, 1] : List ℚ) = [r1, r2] ∧ r1 ≤ r2 := by
  apply weighted_percentile_mono [1] [1] 25 75 [1, 1]
    (by norm_num) (by simp) (by norm_num) (by norm_num) (by norm_num)
  unfold weighted_percentile
  rw [if_pos (by norm_num)]
  unfold wpBody
  simp only [Option.getD_some]
  rw [sortPair_false_of_sorted (by simp) (by simp)]
  show npInterp _ (weightedRanks [1]) _ = _
  have hranks : weightedRanks [1] = [50] := by
    norm_num [weightedRanks, cumsum, List.range_succ]
  rw [hranks]
  unfold npInterp
  rw [if_neg (by simp)]
  norm_num [interp, interpGo]

end ArrayTools
